import Mathlib

/-!
Verification development for the seaworthy core: the process tree
reconstructor (`seaworthy.ps`), the log line pattern matching engine
(`seaworthy.logs`), and the `deep_merge` helper of
`seaworthy/definitions.py`.  The `seaworthy.ps` and `seaworthy.logs` modules
are not present in the source tree (only their tests and callers are), so
those parts are modelled from the specification, faithful to its wording;
`deep_merge` is translated directly from `seaworthy/definitions.py`.
-/

namespace Seaworthy

/-- Modelled from the spec: one process table entry (`PsRow` of the missing
`seaworthy.ps` module).  Spec section 3: pid and parent pid are integers that
are at least 0, user and command line are strings; rows are immutable value
data and two rows with identical field values compare equal. -/
structure PsRow where
  pid : Nat
  ppid : Nat
  ruser : String
  args : String
deriving DecidableEq, Repr

/-- Modelled from the spec: a process tree (`PsTree` of the missing
`seaworthy.ps` module) is a row paired with an ordered sequence of child
trees (spec section 3). -/
inductive PsTree where
  | node (row : PsRow) (children : List PsTree)

/-- Row stored at the root of a tree. -/
def PsTree.row : PsTree → PsRow
  | .node r _ => r

/-- Ordered child trees of the root node. -/
def PsTree.children : PsTree → List PsTree
  | .node _ cs => cs

mutual

/-- Modelled from the spec: `count()` returns the number of nodes in the
subtree rooted at the node, 1 plus the sum of the children's counts,
computed on demand (spec section 4.2). -/
def PsTree.count : PsTree → Nat
  | .node _ cs => 1 + PsTree.countList cs

/-- Sum of the counts of a list of trees. -/
def PsTree.countList : List PsTree → Nat
  | [] => 0
  | t :: ts => t.count + PsTree.countList ts

end

mutual

/-- Rows of a tree in depth-first preorder (observation used in proofs). -/
def treeRows : PsTree → List PsRow
  | .node r cs => r :: treeRowsList cs

/-- Rows of a list of trees, left to right. -/
def treeRowsList : List PsTree → List PsRow
  | [] => []
  | t :: ts => treeRows t ++ treeRowsList ts

end

mutual

/-- All subtrees (nodes) of a tree, the tree itself included. -/
def nodesOf : PsTree → List PsTree
  | .node r cs => .node r cs :: nodesList cs

/-- All subtrees of a list of trees. -/
def nodesList : List PsTree → List PsTree
  | [] => []
  | t :: ts => nodesOf t ++ nodesList ts

end

/-- Modelled from the spec: the rows naming `pid` as parent, in input order
(spec section 4.2 step 4: group rows by parent pid, preserving input
order). -/
def childrenOf (pool : List PsRow) (pid : Nat) : List PsRow :=
  pool.filter (fun r => r.ppid == pid)

/-- Rows of the pool that do not name `pid` as parent, in input order. -/
def nonChildren (pool : List PsRow) (pid : Nat) : List PsRow :=
  pool.filter (fun r => r.ppid != pid)

/-- Modelled from the spec: recursive depth-first assembly starting at a row,
attaching as children the rows that name it as parent, in input order (spec
section 4.2 step 5).  Each recursive step hands the children only the rows
that were not just attached; the pool shrinks whenever a child is attached,
so a fuel equal to the pool length never runs out (made precise by
`assembleF_irrel` below). -/
def assembleF : Nat → List PsRow → PsRow → PsTree
  | 0, _, row => .node row []
  | fuel + 1, pool, row =>
    .node row ((childrenOf pool row.pid).map (assembleF fuel (nonChildren pool row.pid)))

/-- Depth-first assembly with its canonical fuel. -/
def assemble (pool : List PsRow) (row : PsRow) : PsTree :=
  assembleF pool.length pool row

/-- Modelled from the spec: the structured failure type of the process tree
reconstructor, with the four variants of spec sections 4.2 and 7. -/
inductive PsError where
  | noRoot
  | tooManyRoots
  | duplicatePid (pid : Nat)
  | unreachable (pids : List Nat)
deriving DecidableEq, Repr

/-- Modelled from the spec: duplicate detection performed while building the
pid-to-row mapping (spec section 4.2 step 2); scanning rows in input order
with the set of pids seen so far, it reports the first pid found a second
time. -/
def findDup : List PsRow → List Nat → Option Nat
  | [], _ => none
  | r :: rest, seen =>
    if seen.contains r.pid then some r.pid else findDup rest (r.pid :: seen)

/-- Pids of a list of rows, in order. -/
def pids (rows : List PsRow) : List Nat :=
  rows.map (fun r => r.pid)

/-- Modelled from the spec: root candidates are the rows whose parent pid
does not appear as any row's pid in the table (spec section 4.2 step 3). -/
def rootCandidates (rows : List PsRow) : List PsRow :=
  rows.filter (fun r => !((pids rows).contains r.ppid))

/-- Pids of the nodes of a tree, in preorder. -/
def treePids (t : PsTree) : List Nat :=
  pids (treeRows t)

/-- Removal of every copy of a row from a pool (proof helper). -/
def removeRow (z : PsRow) (pool : List PsRow) : List PsRow :=
  pool.filter (fun r => decide (r ≠ z))

/-- Modelled from the spec: `build_process_tree` of the missing
`seaworthy.ps` module.  Following spec section 4.2: detect duplicate pids
while indexing the rows (step 2; the empty table is also rejected, having no
root candidate, as required by step 1), require exactly one root candidate
(step 3; zero is a no-root failure, more than one a too-many-roots failure),
assemble the tree depth first with each node's children in input order
(steps 4 and 5), and finally verify that every input row was reached,
reporting the pids of the unreached rows together otherwise (step 6). -/
def build_process_tree (rows : List PsRow) : Except PsError PsTree :=
  match findDup rows [] with
  | some p => .error (.duplicatePid p)
  | none =>
    match rootCandidates rows with
    | [] => .error .noRoot
    | [root] =>
      if (assemble rows root).count = rows.length then .ok (assemble rows root)
      else .error (.unreachable
        ((rows.filter (fun r => !((treePids (assemble rows root)).contains r.pid))).map
          (fun r => r.pid)))
    | _ => .error .tooManyRoots

/-- Reachability along parent links: the rows of the pool connected to the
root by a chain of rows each naming the previous one's pid as parent.  This
is the specification-side notion used to state connectivity claims. -/
inductive ReachIn (pool : List PsRow) (root : PsRow) : PsRow → Prop where
  | refl : ReachIn pool root root
  | step (p c : PsRow) : ReachIn pool root p → c ∈ pool → c.ppid = p.pid →
      ReachIn pool root c

/-- Modelled from the spec: a constructor argument for the integer fields of
`PsRow`.  The missing `seaworthy.ps` module's row constructor accepts field
values of various types (its tests build rows from both strings and
integers) and coerces pid and parent pid with the integer conversion. -/
inductive PsField where
  | int (n : Nat)
  | str (s : String)
deriving DecidableEq, Repr

/-- Value of a decimal digit character. -/
def digitVal? (c : Char) : Option Nat :=
  if 48 ≤ c.toNat ∧ c.toNat ≤ 57 then some (c.toNat - 48) else none

/-- Accumulate decimal digits left to right, failing on a non-digit. -/
def parseGo : List Char → Nat → Option Nat
  | [], acc => some acc
  | c :: rest, acc =>
    match digitVal? c with
    | none => none
    | some d => parseGo rest (acc * 10 + d)

/-- Parse of a non-empty all-digit string as a decimal natural number
(the integer conversion applied to a numeric string). -/
def parseNat? (s : String) : Option Nat :=
  match s.data with
  | [] => none
  | ds => parseGo ds 0

/-- Modelled from the spec: the integer coercion applied to a pid field at
construction; an integer is taken as is and a string is parsed as a decimal
natural number (spec section 3: pids are integers at least 0), failing on a
non-numeric string. -/
def PsField.toNat? : PsField → Option Nat
  | .int n => some n
  | .str s => parseNat? s

/-- Modelled from the spec: `PsRow` construction, coercing the pid and
parent pid arguments to integers and storing the user and args strings
unchanged. -/
def PsRow.make (pid ppid : PsField) (ruser args : String) : Option PsRow :=
  match pid.toNat?, ppid.toNat? with
  | some p, some q => some ⟨p, q, ruser, args⟩
  | _, _ => none

mutual

/-- Modelled from the spec: the matcher hierarchy of the missing
`seaworthy.logs` module as a closed set of variants (spec sections 3, 4.1
and 9): a regex matcher holds one compiled pattern (embedded as a Boolean
predicate on lines) together with its latched satisfaction state; an
ordered sequence matcher holds the sub-matchers the cursor has not yet
passed; an unordered set matcher holds the outstanding sub-matchers in
declared order. -/
inductive Matcher where
  | regex (pat : String → Bool) (satisfied : Bool)
  | ordered (pending : MatcherList)
  | unordered (pending : MatcherList)

/-- Sub-matcher sequence, mutual with `Matcher`. -/
inductive MatcherList where
  | nil
  | cons (m : Matcher) (rest : MatcherList)

end

/-- Emptiness of a sub-matcher sequence. -/
def MatcherList.isEmpty : MatcherList → Bool
  | .nil => true
  | .cons _ _ => false

/-- Modelled from the spec: query satisfaction without feeding (spec
section 4.1): a regex matcher is satisfied once its latch is set, an
ordered matcher once the cursor has passed the last sub-matcher, an
unordered matcher once its outstanding set is empty. -/
def is_satisfied : Matcher → Bool
  | .regex _ s => s
  | .ordered pending => pending.isEmpty
  | .unordered pending => pending.isEmpty

mutual

/-- Modelled from the spec: present one newly arrived line to a matcher,
returning the updated matcher and whether it is now (or was already)
satisfied (spec section 4.1).  A regex matcher tests the full line against
its pattern and a match latches satisfaction permanently; an ordered
matcher forwards the line only to the sub-matcher at the cursor, advancing
the cursor when that sub-matcher reports satisfaction, and is satisfied
when the cursor passes the last sub-matcher; an unordered matcher tries its
outstanding sub-matchers in declared order via `feedFirst` and is satisfied
when the outstanding set becomes empty.  Feeding an already satisfied
matcher is an idempotent no-op returning true. -/
def feed : Matcher → String → Matcher × Bool
  | .regex p true, _ => (.regex p true, true)
  | .regex p false, line => (.regex p (p line), p line)
  | .ordered .nil, _ => (.ordered .nil, true)
  | .ordered (.cons m rest), line =>
    match feed m line with
    | (_, true) => (.ordered rest, rest.isEmpty)
    | (m2, false) => (.ordered (.cons m2 rest), false)
  | .unordered pending, line =>
    match feedFirst pending line with
    | (pending2, _) => (.unordered pending2, pending2.isEmpty)

/-- Modelled from the spec: try every outstanding sub-matcher in declared
order; the first sub-matcher that reports satisfaction for the line is
removed from the outstanding set and iteration stops; a line that satisfies
no outstanding sub-matcher removes nothing. -/
def feedFirst : MatcherList → String → MatcherList × Bool
  | .nil, _ => (.nil, false)
  | .cons m rest, line =>
    match feed m line with
    | (_, true) => (rest, true)
    | (m2, false) =>
      match feedFirst rest line with
      | (rest2, b) => (.cons m2 rest2, b)

end

/-- Feed a sequence of lines left to right, keeping the updated matcher. -/
def feedAll (m : Matcher) : List String → Matcher
  | [] => m
  | line :: rest => feedAll (feed m line).1 rest


mutual

/-- Python value as consumed by `deep_merge`: a dictionary with string keys
in insertion order, or a non-dictionary value (an integer or a string
suffice for the distinctions `deep_merge` makes, which only tests
`isinstance(v, dict)`). -/
inductive PyVal where
  | int (n : Int)
  | str (s : String)
  | dict (entries : PyEntries)

/-- Entries of a dictionary, in insertion order (mutual with `PyVal`).
Python dictionaries never hold a key twice; that invariant is expressed by
`PyEntries.wf` below rather than by the representation. -/
inductive PyEntries where
  | nil
  | cons (key : String) (val : PyVal) (rest : PyEntries)

end

/-- Dictionary lookup, Python's `d[k]`/`d.get(k)`. -/
def dget : PyEntries → String → Option PyVal
  | .nil, _ => none
  | .cons k v rest, key => if k = key then some v else dget rest key

/-- Python's `result.get(k, {})` with the empty dictionary default. -/
def dgetD (es : PyEntries) (key : String) : PyVal :=
  match dget es key with
  | some v => v
  | none => .dict .nil

/-- Python dictionary assignment `d[k] = v`: an existing key keeps its
position and is overwritten, a new key is appended at the end. -/
def dset : PyEntries → String → PyVal → PyEntries
  | .nil, key, v => .cons key v .nil
  | .cons k w rest, key, v =>
    if k = key then .cons k v rest else .cons k w (dset rest key v)

/-- Key membership in a dictionary. -/
def hasKey : PyEntries → String → Bool
  | .nil, _ => false
  | .cons k _ rest, key => k == key || hasKey rest key

/-- Python's `isinstance(d, dict)`. -/
def PyVal.isDict : PyVal → Bool
  | .dict _ => true
  | _ => false

mutual

/-- Well-formedness: every dictionary, nested ones included, holds each key
at most once, as Python dictionaries do by construction. -/
def PyVal.wf : PyVal → Bool
  | .int _ => true
  | .str _ => true
  | .dict es => es.wf

/-- Well-formedness of dictionary entries (mutual with `PyVal.wf`). -/
def PyEntries.wf : PyEntries → Bool
  | .nil => true
  | .cons k v rest => !(hasKey rest k) && v.wf && rest.wf

end

mutual

/-- Python `repr` of a value, as used for values nested in a dictionary
when the error message interpolates the offending value. -/
def pyRepr : PyVal → String
  | .int n => toString n
  | .str s => "\x27" ++ s ++ "\x27"
  | .dict es => "\x7b" ++ pyReprEntries es ++ "\x7d"

/-- Python `repr` of dictionary entries, comma separated. -/
def pyReprEntries : PyEntries → String
  | .nil => ""
  | .cons k v .nil => "\x27" ++ k ++ "\x27: " ++ pyRepr v
  | .cons k v rest => "\x27" ++ k ++ "\x27: " ++ pyRepr v ++ ", " ++ pyReprEntries rest

end

/-- Python `str` of a value, as interpolated by
`'Can only deep_merge dicts, got {}'.format(d)`. -/
def pyStr : PyVal → String
  | .int n => toString n
  | .str s => s
  | .dict es => "\x7b" ++ pyReprEntries es ++ "\x7d"

/-- Message of the exception raised on a non-dictionary merge argument
(seaworthy/definitions.py line 14). -/
def cantMergeMsg (d : PyVal) : String :=
  "Can only deep_merge dicts, got " ++ pyStr d

mutual

/-- Effect of merging a dictionary into a fresh empty accumulator: the
entries are copied in order, every dictionary value being itself rebuilt
through an empty accumulator (the recursive `deep_merge(result.get(k, {}),
v)` call with an always fresh key).  On well-formed entries this is exactly
`dmEntries` run from the empty accumulator (`dmEntries_rebuild` below). -/
def rebuildEntries (result : PyEntries) : PyEntries → PyEntries
  | .nil => result
  | .cons k v rest => rebuildEntries (dset result k (rebuildVal v)) rest

/-- Rebuild of one value: dictionaries are rebuilt, other values are kept. -/
def rebuildVal : PyVal → PyVal
  | .dict es => .dict (rebuildEntries .nil es)
  | v => v

end

mutual

/-- Translation of one iteration of the outer loop of `deep_merge`
(seaworthy/definitions.py lines 12 to 22) for the argument `d`: raise
unless `d` is a dictionary, then merge its items into `result`. -/
def dmStep (result : PyEntries) : PyVal → Except String PyEntries
  | .dict es => dmEntries result es
  | v => .error (cantMergeMsg v)

/-- Translation of the inner loop `for k, v in d.items()` of `deep_merge`:
a non-dictionary value is stored as is (`result[k] = v`); a dictionary
value is first replaced by `deep_merge(result.get(k, {}), v)`, which
processes `result.get(k, {})` into a fresh accumulator — raising when that
previous value is not a dictionary, copying it via `rebuildEntries`
otherwise — and then merges `v` into it. -/
def dmEntries (result : PyEntries) : PyEntries → Except String PyEntries
  | .nil => .ok result
  | .cons k v rest =>
    match v with
    | .dict es2 =>
      match dgetD result k with
      | .dict prev =>
        match dmEntries (rebuildEntries .nil prev) es2 with
        | .ok merged => dmEntries (dset result k (.dict merged)) rest
        | .error e => .error e
      | prev => .error (cantMergeMsg prev)
    | _ => dmEntries (dset result k v) rest

end

/-- The fold of `deep_merge` over its arguments, from a given accumulated
result. -/
def deepMergeFrom (result : PyEntries) : List PyVal → Except String PyEntries
  | [] => .ok result
  | d :: rest =>
    match dmStep result d with
    | .ok result2 => deepMergeFrom result2 rest
    | .error e => .error e

/-- Translation of `deep_merge` (seaworthy/definitions.py lines 10 to 23):
fold the arguments into an initially empty result dictionary, raising on
any argument that is not a dictionary. -/
def deep_merge (ds : List PyVal) : Except String PyEntries :=
  deepMergeFrom .nil ds

/-- Previous accumulated value for a key as a value, Python's
`result.get(k, {})` applied to an optional lookup result. -/
def accD : Option PyVal → PyVal
  | some v => v
  | none => .dict .nil

/-- Specification-side per-key merge rule: fold over the arguments; an
argument not containing the key leaves the accumulated value, a
non-dictionary value overwrites it, and a dictionary value is deep-merged
with the accumulated value (the empty dictionary when there is none); a
non-dictionary argument raises. -/
def mergedVal (k : String) : Option PyVal → List PyVal → Except String (Option PyVal)
  | acc, [] => .ok acc
  | acc, d :: rest =>
    match d with
    | .dict es =>
      match dget es k with
      | none => mergedVal k acc rest
      | some v =>
        match v with
        | .dict _ =>
          match deep_merge [accD acc, v] with
          | .ok merged => mergedVal k (some (.dict merged)) rest
          | .error e => .error e
        | _ => mergedVal k (some v) rest
    | d2 => .error (cantMergeMsg d2)

/-- Specification-side effect of one merged dictionary on one key: an
absent key leaves the accumulated value, a non-dictionary value overwrites
it, a dictionary value is deep-merged with the accumulated value. -/
def keyStep (k : String) (acc : Option PyVal) (es : PyEntries) :
    Except String (Option PyVal) :=
  match dget es k with
  | none => .ok acc
  | some v =>
    match v with
    | .dict _ =>
      match deep_merge [accD acc, v] with
      | .ok merged => .ok (some (.dict merged))
      | .error e => .error e
    | _ => .ok (some v)


/-! ### Theorems -/

/-! ### Basic lemmas about the process model -/

theorem natContains_iff {l : List Nat} {a : Nat} : l.contains a = true ↔ a ∈ l := by
  simp [List.contains, List.elem_iff]

theorem mem_childrenOf {pool : List PsRow} {pid : Nat} {r : PsRow} :
    r ∈ childrenOf pool pid ↔ r ∈ pool ∧ r.ppid = pid := by
  simp [childrenOf, List.mem_filter]

theorem mem_nonChildren {pool : List PsRow} {pid : Nat} {r : PsRow} :
    r ∈ nonChildren pool pid ↔ r ∈ pool ∧ r.ppid ≠ pid := by
  simp [nonChildren, List.mem_filter]

theorem mem_removeRow {z : PsRow} {pool : List PsRow} {r : PsRow} :
    r ∈ removeRow z pool ↔ r ∈ pool ∧ r ≠ z := by
  simp [removeRow, List.mem_filter]

theorem mem_pids {rows : List PsRow} {a : Nat} :
    a ∈ pids rows ↔ ∃ r ∈ rows, r.pid = a := by
  simp [pids, List.mem_map]

theorem pids_sublist {l1 l2 : List PsRow} (h : l1.Sublist l2) :
    (pids l1).Sublist (pids l2) :=
  h.map _

theorem length_filter_lt {l : List PsRow} {p : PsRow → Bool} {a : PsRow}
    (ha : a ∈ l) (hpa : p a = false) : (l.filter p).length < l.length := by
  induction l with
  | nil => cases ha
  | cons b rest ih =>
    rcases List.mem_cons.mp ha with h | h
    · subst h
      rw [List.filter_cons]
      have := List.length_filter_le p rest
      simp [hpa]
      omega
    · rw [List.filter_cons]
      have hlt := ih h
      by_cases hb : p b = true
      · simp [hb]
        omega
      · simp only [Bool.not_eq_true] at hb
        simp [hb]
        omega

theorem length_nonChildren_lt {pool : List PsRow} {pid : Nat} {c : PsRow}
    (hc : c ∈ childrenOf pool pid) : (nonChildren pool pid).length < pool.length := by
  obtain ⟨hmem, hppid⟩ := mem_childrenOf.mp hc
  refine length_filter_lt hmem ?_
  simp [hppid]

theorem assembleF_irrel : ∀ (f g : Nat) (pool : List PsRow) (row : PsRow),
    pool.length ≤ f → pool.length ≤ g → assembleF f pool row = assembleF g pool row := by
  intro f
  induction f with
  | zero =>
    intro g pool row hf _
    have hp : pool = [] := List.length_eq_zero.mp (Nat.le_zero.mp hf)
    subst hp
    cases g <;> simp [assembleF, childrenOf]
  | succ f ih =>
    intro g pool row hf hg
    cases g with
    | zero =>
      have hp : pool = [] := List.length_eq_zero.mp (Nat.le_zero.mp hg)
      subst hp
      simp [assembleF, childrenOf]
    | succ g =>
      simp only [assembleF, PsTree.node.injEq, true_and]
      apply List.map_congr_left
      intro c hc
      have hlt := length_nonChildren_lt hc
      exact ih g (nonChildren pool row.pid) c (by omega) (by omega)

theorem assemble_eq (pool : List PsRow) (row : PsRow) :
    assemble pool row =
      .node row ((childrenOf pool row.pid).map (assemble (nonChildren pool row.pid))) := by
  unfold assemble
  cases hp : pool.length with
  | zero =>
    have hq : pool = [] := List.length_eq_zero.mp hp
    subst hq
    simp [assembleF, childrenOf]
  | succ n =>
    simp only [assembleF, PsTree.node.injEq, true_and]
    apply List.map_congr_left
    intro c hc
    have hlt := length_nonChildren_lt hc
    exact assembleF_irrel n (nonChildren pool row.pid).length (nonChildren pool row.pid) c
      (by omega) le_rfl

theorem assemble_row (pool : List PsRow) (row : PsRow) :
    (assemble pool row).row = row := by
  rw [assemble_eq]
  rfl

theorem mem_treeRowsList {ts : List PsTree} {x : PsRow} :
    x ∈ treeRowsList ts ↔ ∃ t ∈ ts, x ∈ treeRows t := by
  induction ts with
  | nil => simp [treeRowsList]
  | cons t ts ih => simp [treeRowsList, List.mem_append, ih]

theorem self_mem_treeRows (pool : List PsRow) (row : PsRow) :
    row ∈ treeRows (assemble pool row) := by
  rw [assemble_eq]
  exact List.mem_cons_self _ _

/-! ### Reachability lemmas -/

theorem ReachIn.src {pool : List PsRow} {root x : PsRow} (h : ReachIn pool root x) :
    x = root ∨ x ∈ pool := by
  cases h with
  | refl => exact Or.inl rfl
  | step p c _ hc _ => exact Or.inr hc

theorem ReachIn.mono {pool pool2 : List PsRow} {root x : PsRow}
    (hsub : ∀ y, y ∈ pool → y ∈ pool2) (h : ReachIn pool root x) :
    ReachIn pool2 root x := by
  induction h with
  | refl => exact .refl
  | step p c _ hc hpp ih => exact .step p c ih (hsub c hc) hpp

theorem ReachIn.lift {pool pool2 : List PsRow} {root s x : PsRow}
    (hsub : ∀ y, y ∈ pool → y ∈ pool2) (hs : ReachIn pool2 root s)
    (h : ReachIn pool s x) : ReachIn pool2 root x := by
  induction h with
  | refl => exact hs
  | step p c _ hc hpp ih => exact .step p c ih (hsub c hc) hpp

/-! ### Structure of assembled trees -/

theorem treeRows_assemble_subset_aux :
    ∀ (n : Nat) (pool : List PsRow), pool.length ≤ n →
      ∀ (row x : PsRow), x ∈ treeRows (assemble pool row) → x = row ∨ x ∈ pool := by
  intro n
  induction n with
  | zero =>
    intro pool hlen row x hx
    have hp : pool = [] := List.length_eq_zero.mp (Nat.le_zero.mp hlen)
    subst hp
    rw [assemble_eq] at hx
    simp only [childrenOf, List.filter_nil, List.map_nil, treeRows, treeRowsList] at hx
    rcases List.mem_cons.mp hx with h | h
    · exact Or.inl h
    · cases h
  | succ n ih =>
    intro pool hlen row x hx
    rw [assemble_eq] at hx
    simp only [treeRows] at hx
    rcases List.mem_cons.mp hx with h | h
    · exact Or.inl h
    · rcases mem_treeRowsList.mp h with ⟨t, ht, hxt⟩
      rcases List.mem_map.mp ht with ⟨c, hc, rfl⟩
      have hlt := length_nonChildren_lt hc
      rcases ih (nonChildren pool row.pid) (by omega) c x hxt with h1 | h1
      · exact Or.inr (h1 ▸ (mem_childrenOf.mp hc).1)
      · exact Or.inr (mem_nonChildren.mp h1).1

theorem treeRows_assemble_subset {pool : List PsRow} {row x : PsRow}
    (hx : x ∈ treeRows (assemble pool row)) : x = row ∨ x ∈ pool :=
  treeRows_assemble_subset_aux pool.length pool le_rfl row x hx

theorem child_mem_treeRows_aux :
    ∀ (n : Nat) (pool : List PsRow), pool.length ≤ n →
      ∀ (row p c : PsRow), p ∈ treeRows (assemble pool row) → c ∈ pool →
        c.ppid = p.pid → c ∈ treeRows (assemble pool row) := by
  intro n
  induction n with
  | zero =>
    intro pool hlen row p c _ hc _
    have hq : pool = [] := List.length_eq_zero.mp (Nat.le_zero.mp hlen)
    subst hq
    cases hc
  | succ n ih =>
    intro pool hlen row p c hp hc hppid
    rw [assemble_eq] at hp ⊢
    simp only [treeRows] at hp ⊢
    rcases List.mem_cons.mp hp with h | h
    · subst h
      have hcc : c ∈ childrenOf pool p.pid := mem_childrenOf.mpr ⟨hc, hppid⟩
      refine List.mem_cons.mpr (Or.inr (mem_treeRowsList.mpr ?_))
      exact ⟨assemble (nonChildren pool p.pid) c, List.mem_map_of_mem _ hcc,
        self_mem_treeRows _ _⟩
    · rcases mem_treeRowsList.mp h with ⟨t, ht, hpt⟩
      rcases List.mem_map.mp ht with ⟨k, hk, rfl⟩
      by_cases hcrow : c.ppid = row.pid
      · have hcc : c ∈ childrenOf pool row.pid := mem_childrenOf.mpr ⟨hc, hcrow⟩
        refine List.mem_cons.mpr (Or.inr (mem_treeRowsList.mpr ?_))
        exact ⟨assemble (nonChildren pool row.pid) c, List.mem_map_of_mem _ hcc,
          self_mem_treeRows _ _⟩
      · have hcrest : c ∈ nonChildren pool row.pid := mem_nonChildren.mpr ⟨hc, hcrow⟩
        have hlt := length_nonChildren_lt hk
        have := ih (nonChildren pool row.pid) (by omega) k p c hpt hcrest hppid
        refine List.mem_cons.mpr (Or.inr (mem_treeRowsList.mpr ?_))
        exact ⟨assemble (nonChildren pool row.pid) k, List.mem_map_of_mem _ hk, this⟩

theorem child_mem_treeRows {pool : List PsRow} {row p c : PsRow}
    (hp : p ∈ treeRows (assemble pool row)) (hc : c ∈ pool) (hppid : c.ppid = p.pid) :
    c ∈ treeRows (assemble pool row) :=
  child_mem_treeRows_aux pool.length pool le_rfl row p c hp hc hppid

theorem reach_of_mem_treeRows_aux :
    ∀ (n : Nat) (pool : List PsRow), pool.length ≤ n →
      ∀ (row x : PsRow), x ∈ treeRows (assemble pool row) → ReachIn pool row x := by
  intro n
  induction n with
  | zero =>
    intro pool hlen row x hx
    have hq : pool = [] := List.length_eq_zero.mp (Nat.le_zero.mp hlen)
    subst hq
    rcases treeRows_assemble_subset hx with h | h
    · exact h ▸ .refl
    · cases h
  | succ n ih =>
    intro pool hlen row x hx
    rw [assemble_eq] at hx
    simp only [treeRows] at hx
    rcases List.mem_cons.mp hx with h | h
    · exact h ▸ .refl
    · rcases mem_treeRowsList.mp h with ⟨t, ht, hxt⟩
      rcases List.mem_map.mp ht with ⟨k, hk, rfl⟩
      obtain ⟨hkpool, hkppid⟩ := mem_childrenOf.mp hk
      have hlt := length_nonChildren_lt hk
      have hsub : ∀ y, y ∈ nonChildren pool row.pid → y ∈ pool :=
        fun y hy => (mem_nonChildren.mp hy).1
      have hreach : ReachIn (nonChildren pool row.pid) k x :=
        ih (nonChildren pool row.pid) (by omega) k x hxt
      exact ReachIn.lift hsub (.step row k .refl hkpool hkppid) hreach

theorem mem_treeRows_of_reach {pool : List PsRow} {row x : PsRow}
    (h : ReachIn pool row x) : x ∈ treeRows (assemble pool row) := by
  induction h with
  | refl => exact self_mem_treeRows _ _
  | step p c _ hc hppid ih => exact child_mem_treeRows ih hc hppid

theorem mem_treeRows_iff_reach {pool : List PsRow} {row x : PsRow} :
    x ∈ treeRows (assemble pool row) ↔ ReachIn pool row x :=
  ⟨reach_of_mem_treeRows_aux pool.length pool le_rfl row x, mem_treeRows_of_reach⟩

theorem pids_cons (r : PsRow) (rows : List PsRow) :
    pids (r :: rows) = r.pid :: pids rows := rfl

theorem pid_nodup_tail {row : PsRow} {pool : List PsRow}
    (hnd : (pids (row :: pool)).Nodup) : (pids pool).Nodup := by
  rw [pids_cons, List.nodup_cons] at hnd
  exact hnd.2

theorem pid_notmem_of_nodup {row : PsRow} {pool : List PsRow}
    (hnd : (pids (row :: pool)).Nodup) : row.pid ∉ pids pool := by
  rw [pids_cons, List.nodup_cons] at hnd
  exact hnd.1

theorem pid_inj {rows : List PsRow} (hnd : (pids rows).Nodup) {r s : PsRow}
    (hr : r ∈ rows) (hs : s ∈ rows) (hpid : r.pid = s.pid) : r = s :=
  List.inj_on_of_nodup_map hnd hr hs hpid

theorem reach_no_cross {pool : List PsRow} {row k1 k2 : PsRow}
    (hnd : (pids (row :: pool)).Nodup)
    (hk1 : k1 ∈ pool) (hk2 : k2 ∈ pool)
    (hp1 : k1.ppid = row.pid) (hp2 : k2.ppid = row.pid) (hne : k1 ≠ k2) :
    ∀ x, ReachIn pool k1 x → ReachIn pool k2 x → False := by
  have hndpool : (pids pool).Nodup := pid_nodup_tail hnd
  have hrowpid : row.pid ∉ pids pool := pid_notmem_of_nodup hnd
  intro x h1
  induction h1 with
  | refl =>
    intro h2
    cases h2 with
    | refl => exact hne rfl
    | step p c hq hcpool hcppid =>
      rcases hq.src with he | hp
      · refine hrowpid (mem_pids.mpr ⟨p, he ▸ hk2, ?_⟩)
        omega
      · refine hrowpid (mem_pids.mpr ⟨p, hp, ?_⟩)
        omega
  | step p c hq hcpool hcppid ih =>
    intro h2
    cases h2 with
    | refl =>
      rcases hq.src with he | hp
      · refine hrowpid (mem_pids.mpr ⟨p, he ▸ hk1, ?_⟩)
        subst he
        omega
      · refine hrowpid (mem_pids.mpr ⟨p, hp, ?_⟩)
        omega
    | step q c2 hq2 hc2pool hc2ppid =>
      rcases hq.src with he | hp
      · rcases hq2.src with he2 | hqm
        · refine hne (pid_inj hndpool hk1 hk2 ?_)
          subst he
          subst he2
          omega
        · have hqe : q = p := by
            refine pid_inj hndpool hqm (he ▸ hk1) ?_
            omega
          exact ih (hqe ▸ hq2)
      · rcases hq2.src with he2 | hqm
        · have hpe : p = q := by
            refine pid_inj hndpool hp (he2 ▸ hk2) ?_
            omega
          exact ih (hpe ▸ (he2 ▸ ReachIn.refl))
        · have hqe : q = p := by
            refine pid_inj hndpool hqm hp ?_
            omega
          exact ih (hqe ▸ hq2)

theorem pid_nodup_child {pool : List PsRow} {row k : PsRow}
    (hnd : (pids (row :: pool)).Nodup) (hk : k ∈ childrenOf pool row.pid) :
    (pids (k :: nonChildren pool row.pid)).Nodup := by
  obtain ⟨hkpool, hkppid⟩ := mem_childrenOf.mp hk
  have hndpool : (pids pool).Nodup := pid_nodup_tail hnd
  have hrest : (pids (nonChildren pool row.pid)).Nodup :=
    List.Nodup.sublist (pids_sublist (List.filter_sublist pool)) hndpool
  rw [pids_cons, List.nodup_cons]
  refine ⟨?_, hrest⟩
  intro hmem
  rcases mem_pids.mp hmem with ⟨r, hr, hrpid⟩
  obtain ⟨hrpool, hrppid⟩ := mem_nonChildren.mp hr
  have : r = k := pid_inj hndpool hrpool hkpool hrpid
  subst this
  exact hrppid hkppid

theorem treeRows_nodup_aux :
    ∀ (n : Nat) (pool : List PsRow), pool.length ≤ n →
      ∀ row : PsRow, (pids (row :: pool)).Nodup →
        (treeRows (assemble pool row)).Nodup := by
  intro n
  induction n with
  | zero =>
    intro pool hlen row _
    have hq : pool = [] := List.length_eq_zero.mp (Nat.le_zero.mp hlen)
    subst hq
    rw [assemble_eq]
    simp [childrenOf, treeRows, treeRowsList]
  | succ n ih =>
    intro pool hlen row hnd
    have hndpool : (pids pool).Nodup := pid_nodup_tail hnd
    have hrowpid : row.pid ∉ pids pool := pid_notmem_of_nodup hnd
    have hpoolnodup : pool.Nodup := List.Nodup.of_map _ hndpool
    rw [assemble_eq]
    simp only [treeRows]
    rw [List.nodup_cons]
    constructor
    · intro hmem
      rcases mem_treeRowsList.mp hmem with ⟨t, ht, hxt⟩
      rcases List.mem_map.mp ht with ⟨k, hk, rfl⟩
      have hrowpool : row ∈ pool := by
        rcases treeRows_assemble_subset hxt with rfl | h
        · exact (mem_childrenOf.mp hk).1
        · exact (mem_nonChildren.mp h).1
      exact hrowpid (mem_pids.mpr ⟨row, hrowpool, rfl⟩)
    · have hchildnodup : (childrenOf pool row.pid).Nodup :=
        List.Nodup.sublist (List.filter_sublist pool) hpoolnodup
      suffices h : ∀ ks : List PsRow, (∀ k ∈ ks, k ∈ childrenOf pool row.pid) →
          ks.Nodup →
          (treeRowsList (ks.map (assemble (nonChildren pool row.pid)))).Nodup by
        exact h _ (fun k hk => hk) hchildnodup
      intro ks
      induction ks with
      | nil =>
        intro _ _
        simp [treeRowsList]
      | cons k ks ihk =>
        intro hksub hknd
        rw [List.nodup_cons] at hknd
        simp only [List.map_cons, treeRowsList]
        rw [List.nodup_append]
        have hk := hksub k (List.mem_cons_self _ _)
        have hlt := length_nonChildren_lt hk
        refine ⟨?_, ?_, ?_⟩
        · exact ih _ (by omega) k (pid_nodup_child hnd hk)
        · exact ihk (fun k2 hk2 => hksub k2 (List.mem_cons_of_mem _ hk2)) hknd.2
        · intro x hx hx2
          rcases mem_treeRowsList.mp hx2 with ⟨t, ht, hxt⟩
          rcases List.mem_map.mp ht with ⟨k2, hk2, rfl⟩
          have hk2c := hksub k2 (List.mem_cons_of_mem _ hk2)
          have hkne : k ≠ k2 := fun he => hknd.1 (he ▸ hk2)
          have hsub : ∀ y, y ∈ nonChildren pool row.pid → y ∈ pool :=
            fun y hy => (mem_nonChildren.mp hy).1
          have hr1 : ReachIn pool k x :=
            ReachIn.mono hsub (mem_treeRows_iff_reach.mp hx)
          have hr2 : ReachIn pool k2 x :=
            ReachIn.mono hsub (mem_treeRows_iff_reach.mp hxt)
          exact reach_no_cross hnd (mem_childrenOf.mp hk).1 (mem_childrenOf.mp hk2c).1
            (mem_childrenOf.mp hk).2 (mem_childrenOf.mp hk2c).2 hkne x hr1 hr2

theorem treeRows_nodup {pool : List PsRow} {row : PsRow}
    (hnd : (pids (row :: pool)).Nodup) : (treeRows (assemble pool row)).Nodup :=
  treeRows_nodup_aux pool.length pool le_rfl row hnd

mutual

theorem count_eq_length_treeRows : ∀ t : PsTree, t.count = (treeRows t).length
  | .node r cs => by
    simp only [PsTree.count, treeRows, List.length_cons,
      countList_eq_length_treeRowsList cs]
    omega

theorem countList_eq_length_treeRowsList :
    ∀ ts : List PsTree, PsTree.countList ts = (treeRowsList ts).length
  | [] => rfl
  | t :: ts => by
    simp only [PsTree.countList, treeRowsList, List.length_append,
      count_eq_length_treeRows t, countList_eq_length_treeRowsList ts]

end

theorem childrenOf_removeRow {pool : List PsRow} {z : PsRow} {pid : Nat}
    (hz : z.ppid ≠ pid) : childrenOf (removeRow z pool) pid = childrenOf pool pid := by
  unfold childrenOf removeRow
  rw [List.filter_filter]
  apply List.filter_congr
  intro r _
  by_cases h : r.ppid = pid
  · have hrz : r ≠ z := fun he => hz (by rw [← he]; exact h)
    simp [h, hrz]
  · simp [h]

theorem nonChildren_removeRow {pool : List PsRow} {z : PsRow} {pid : Nat} :
    nonChildren (removeRow z pool) pid = removeRow z (nonChildren pool pid) := by
  unfold nonChildren removeRow
  rw [List.filter_filter, List.filter_filter]
  apply List.filter_congr
  intro r _
  exact Bool.and_comm _ _

theorem pids_subset_of_nonChildren {pool : List PsRow} {pid : Nat} {a : Nat}
    (h : a ∈ pids (nonChildren pool pid)) : a ∈ pids pool := by
  rcases mem_pids.mp h with ⟨r, hr, hrpid⟩
  exact mem_pids.mpr ⟨r, (mem_nonChildren.mp hr).1, hrpid⟩

theorem assemble_removeRow_aux :
    ∀ (n : Nat) (pool : List PsRow), pool.length ≤ n →
      ∀ (row z : PsRow), z.ppid ∉ pids pool → z.ppid ≠ row.pid →
        assemble pool row = assemble (removeRow z pool) row := by
  intro n
  induction n with
  | zero =>
    intro pool hlen row z _ _
    have hq : pool = [] := List.length_eq_zero.mp (Nat.le_zero.mp hlen)
    subst hq
    rfl
  | succ n ih =>
    intro pool hlen row z hz1 hz2
    rw [assemble_eq, assemble_eq]
    rw [childrenOf_removeRow hz2, nonChildren_removeRow]
    refine congrArg _ (List.map_congr_left ?_)
    intro c hc
    have hlt := length_nonChildren_lt hc
    refine ih _ (by omega) c z ?_ ?_
    · exact fun hmem => hz1 (pids_subset_of_nonChildren hmem)
    · intro he
      exact hz1 (he ▸ mem_pids.mpr ⟨c, (mem_childrenOf.mp hc).1, rfl⟩)

theorem assemble_removeRow {pool : List PsRow} {row z : PsRow}
    (hz1 : z.ppid ∉ pids pool) (hz2 : z.ppid ≠ row.pid) :
    assemble pool row = assemble (removeRow z pool) row :=
  assemble_removeRow_aux pool.length pool le_rfl row z hz1 hz2

theorem mem_nodesList {ts : List PsTree} {s : PsTree} :
    s ∈ nodesList ts ↔ ∃ t ∈ ts, s ∈ nodesOf t := by
  induction ts with
  | nil => simp [nodesList]
  | cons t ts ih => simp [nodesList, List.mem_append, ih]

mutual

theorem row_mem_of_mem_nodesOf : ∀ (t s : PsTree), s ∈ nodesOf t → s.row ∈ treeRows t
  | .node r cs, s => by
    intro hs
    simp only [nodesOf] at hs
    rcases List.mem_cons.mp hs with he | h
    · subst he
      exact List.mem_cons_self _ _
    · simp only [treeRows]
      exact List.mem_cons_of_mem _ (rowList_mem_of_mem_nodesList cs s h)

theorem rowList_mem_of_mem_nodesList :
    ∀ (ts : List PsTree) (s : PsTree), s ∈ nodesList ts → s.row ∈ treeRowsList ts
  | [], s => by
    intro hs
    simp only [nodesList] at hs
    cases hs
  | t :: ts, s => by
    intro hs
    simp only [nodesList] at hs
    simp only [treeRowsList]
    rcases List.mem_append.mp hs with h | h
    · exact List.mem_append.mpr (Or.inl (row_mem_of_mem_nodesOf t s h))
    · exact List.mem_append.mpr (Or.inr (rowList_mem_of_mem_nodesList ts s h))

end

theorem nodes_children_aux :
    ∀ (n : Nat) (pool : List PsRow), pool.length ≤ n →
      ∀ row : PsRow, (pids (row :: pool)).Nodup →
        ∀ s ∈ nodesOf (assemble pool row),
          s.children.map PsTree.row = childrenOf pool s.row.pid := by
  intro n
  induction n with
  | zero =>
    intro pool hlen row _ s hs
    have hq : pool = [] := List.length_eq_zero.mp (Nat.le_zero.mp hlen)
    subst hq
    rw [assemble_eq] at hs
    simp only [childrenOf, List.filter_nil, List.map_nil, nodesOf, nodesList] at hs
    rcases List.mem_cons.mp hs with he | h
    · subst he
      simp [PsTree.children, childrenOf]
    · cases h
  | succ n ih =>
    intro pool hlen row hnd s hs
    rw [assemble_eq] at hs
    simp only [nodesOf] at hs
    rcases List.mem_cons.mp hs with he | h
    · subst he
      simp only [PsTree.children, PsTree.row, List.map_map]
      have hmap : ∀ c ∈ childrenOf pool row.pid,
          (PsTree.row ∘ assemble (nonChildren pool row.pid)) c = id c := by
        intro c _
        simp [Function.comp, assemble_row]
      rw [List.map_congr_left hmap, List.map_id]
    · rcases mem_nodesList.mp h with ⟨t, ht, hst⟩
      rcases List.mem_map.mp ht with ⟨k, hk, rfl⟩
      have hlt := length_nonChildren_lt hk
      have hknd := pid_nodup_child hnd hk
      rw [ih _ (by omega) k hknd s hst]
      have hsrow : s.row ∈ pool := by
        have hmem := row_mem_of_mem_nodesOf _ s hst
        rcases treeRows_assemble_subset hmem with he | hm
        · exact he ▸ (mem_childrenOf.mp hk).1
        · exact (mem_nonChildren.mp hm).1
      have hne : s.row.pid ≠ row.pid := by
        intro he
        exact pid_notmem_of_nodup hnd (he ▸ mem_pids.mpr ⟨s.row, hsrow, rfl⟩)
      unfold childrenOf nonChildren
      rw [List.filter_filter]
      apply List.filter_congr
      intro r _
      by_cases hr : r.ppid = s.row.pid
      · simp [hr, hne]
      · simp [hr]

/-! ### Duplicate detection and root candidates -/

theorem natContains_eq_false {l : List Nat} {a : Nat} :
    l.contains a = false ↔ a ∉ l := by
  constructor
  · intro h hmem
    rw [natContains_iff.mpr hmem] at h
    cases h
  · intro h
    cases hc : l.contains a with
    | false => rfl
    | true => exact absurd (natContains_iff.mp hc) h

theorem findDup_eq_none : ∀ (rows : List PsRow) (seen : List Nat),
    (pids rows).Nodup → (∀ p ∈ pids rows, p ∉ seen) → findDup rows seen = none := by
  intro rows
  induction rows with
  | nil => intro seen _ _; rfl
  | cons r rest ih =>
    intro seen hnd hdisj
    rw [pids_cons, List.nodup_cons] at hnd
    have h1 : r.pid ∉ seen := hdisj r.pid (by rw [pids_cons]; exact List.mem_cons_self _ _)
    have hc : ¬ (seen.contains r.pid = true) := fun h => h1 (natContains_iff.mp h)
    rw [findDup, if_neg hc]
    apply ih _ hnd.2
    intro p hp hmem
    rcases List.mem_cons.mp hmem with he | hseen
    · exact hnd.1 (he ▸ hp)
    · exact hdisj p (by rw [pids_cons]; exact List.mem_cons_of_mem _ hp) hseen

theorem nodup_of_findDup_none : ∀ (rows : List PsRow) (seen : List Nat),
    findDup rows seen = none → (pids rows).Nodup ∧ ∀ p ∈ pids rows, p ∉ seen := by
  intro rows
  induction rows with
  | nil => intro seen _; simp [pids]
  | cons r rest ih =>
    intro seen h
    rw [findDup] at h
    by_cases hc : seen.contains r.pid = true
    · rw [if_pos hc] at h
      cases h
    · rw [if_neg hc] at h
      obtain ⟨hnd, hdisj⟩ := ih (r.pid :: seen) h
      have hnotseen : r.pid ∉ seen := fun hmem => hc (natContains_iff.mpr hmem)
      rw [pids_cons]
      constructor
      · rw [List.nodup_cons]
        refine ⟨?_, hnd⟩
        intro hmem
        exact hdisj r.pid hmem (List.mem_cons_self _ _)
      · intro p hp
        rcases List.mem_cons.mp hp with he | hp2
        · exact he ▸ hnotseen
        · exact fun hmem => hdisj p hp2 (List.mem_cons_of_mem _ hmem)

theorem findDup_some : ∀ (rows : List PsRow) (seen : List Nat) (p : Nat),
    findDup rows seen = some p →
    p ∈ pids rows ∧ (p ∈ seen ∨ 2 ≤ (pids rows).count p) := by
  intro rows
  induction rows with
  | nil => intro seen p h; cases h
  | cons r rest ih =>
    intro seen p h
    rw [findDup] at h
    by_cases hc : seen.contains r.pid = true
    · rw [if_pos hc] at h
      injection h with he
      subst he
      refine ⟨by rw [pids_cons]; exact List.mem_cons_self _ _, Or.inl (natContains_iff.mp hc)⟩
    · rw [if_neg hc] at h
      obtain ⟨hp1, hp2⟩ := ih (r.pid :: seen) p h
      rw [pids_cons]
      refine ⟨List.mem_cons_of_mem _ hp1, ?_⟩
      rcases hp2 with hseen | hcount
      · rcases List.mem_cons.mp hseen with he | hseen2
        · subst he
          right
          have hpos : 0 < (pids rest).count r.pid := List.count_pos_iff.mpr hp1
          rw [List.count_cons_self]
          omega
        · exact Or.inl hseen2
      · right
        rw [List.count_cons]
        split <;> omega

theorem mem_rootCandidates {rows : List PsRow} {r : PsRow} :
    r ∈ rootCandidates rows ↔ r ∈ rows ∧ r.ppid ∉ pids rows := by
  unfold rootCandidates
  rw [List.mem_filter]
  constructor
  · rintro ⟨h1, h2⟩
    refine ⟨h1, ?_⟩
    rw [Bool.not_eq_true'] at h2
    exact natContains_eq_false.mp h2
  · rintro ⟨h1, h2⟩
    refine ⟨h1, ?_⟩
    rw [Bool.not_eq_true']
    exact natContains_eq_false.mpr h2

theorem root_facts {rows : List PsRow} {root : PsRow}
    (hroot : rootCandidates rows = [root]) :
    root ∈ rows ∧ root.ppid ∉ pids rows :=
  mem_rootCandidates.mp (hroot ▸ List.mem_cons_self root [])

/-! ### The assembled tree under a unique root candidate -/

theorem removeRow_root_nodup {rows : List PsRow} {root : PsRow}
    (hnd : (pids rows).Nodup) (hmem : root ∈ rows) :
    (pids (root :: removeRow root rows)).Nodup := by
  rw [pids_cons, List.nodup_cons]
  constructor
  · intro hmem2
    rcases mem_pids.mp hmem2 with ⟨r, hr, hrpid⟩
    obtain ⟨hrrows, hrne⟩ := mem_removeRow.mp hr
    exact hrne (pid_inj hnd hrrows hmem hrpid)
  · exact List.Nodup.sublist (pids_sublist (List.filter_sublist rows)) hnd

theorem reach_removeRow {rows : List PsRow} {root x : PsRow} (hrootmem : root ∈ rows)
    (hrp : root.ppid ∉ pids rows) (h : ReachIn rows root x) :
    ReachIn (removeRow root rows) root x := by
  induction h with
  | refl => exact .refl
  | step p c hp hc hppid ih =>
    have hppool : p.pid ∈ pids rows := by
      rcases hp.src with he | hpm
      · exact mem_pids.mpr ⟨p, he ▸ hrootmem, rfl⟩
      · exact mem_pids.mpr ⟨p, hpm, rfl⟩
    have hcne : c ≠ root := by
      intro he
      subst he
      rw [hppid] at hrp
      exact hrp hppool
    exact .step p c ih (mem_removeRow.mpr ⟨hc, hcne⟩) hppid

theorem build_context {rows : List PsRow} {root : PsRow}
    (hnd : (pids rows).Nodup) (hroot : rootCandidates rows = [root]) :
    (treeRows (assemble rows root)).Nodup ∧
    (∀ x, x ∈ treeRows (assemble rows root) ↔ ReachIn rows root x) ∧
    (∀ x, x ∈ treeRows (assemble rows root) → x ∈ rows) := by
  obtain ⟨hrootmem, hrootppid⟩ := root_facts hroot
  have hz2 : root.ppid ≠ root.pid :=
    fun he => hrootppid (he ▸ mem_pids.mpr ⟨root, hrootmem, rfl⟩)
  have hdrop : assemble rows root = assemble (removeRow root rows) root :=
    assemble_removeRow hrootppid hz2
  have hnd2 := removeRow_root_nodup hnd hrootmem
  refine ⟨?_, ?_, ?_⟩
  · rw [hdrop]
    exact treeRows_nodup hnd2
  · intro x
    rw [hdrop, mem_treeRows_iff_reach]
    constructor
    · exact ReachIn.mono (fun y hy => (mem_removeRow.mp hy).1)
    · exact reach_removeRow hrootmem hrootppid
  · intro x hx
    rw [hdrop] at hx
    rcases treeRows_assemble_subset hx with he | hm
    · exact he ▸ hrootmem
    · exact (mem_removeRow.mp hm).1

/-! ### Claim theorems for the process tree reconstructor -/

/-- C1: for every non-empty sequence of rows with pairwise-distinct pids,
forming a single connected tree, with exactly one row whose parent pid does
not occur among the rows' pids, `build_process_tree` succeeds and `count()`
on the resulting tree equals the number of input rows. -/
theorem build_process_tree_connected (rows : List PsRow) (root : PsRow)
    (_hne : rows ≠ []) (hnd : (pids rows).Nodup)
    (hroot : rootCandidates rows = [root])
    (hconn : ∀ r ∈ rows, ReachIn rows root r) :
    ∃ t, build_process_tree rows = .ok t ∧ t.count = rows.length := by
  obtain ⟨hnodup, hiff, hsub⟩ := build_context hnd hroot
  have hsub2 : ∀ r ∈ rows, r ∈ treeRows (assemble rows root) :=
    fun r hr => (hiff r).mpr (hconn r hr)
  have hrowsnd : rows.Nodup := List.Nodup.of_map _ hnd
  have hlen : (treeRows (assemble rows root)).length = rows.length := by
    have h1 := (List.subperm_of_subset hnodup (fun x hx => hsub x hx)).length_le
    have h2 := (List.subperm_of_subset hrowsnd (fun r hr => hsub2 r hr)).length_le
    omega
  have hcount : (assemble rows root).count = rows.length := by
    rw [count_eq_length_treeRows]
    exact hlen
  refine ⟨assemble rows root, ?_, hcount⟩
  unfold build_process_tree
  rw [findDup_eq_none rows [] hnd (by simp), hroot]
  simp [hcount]

/-- Witness for C1 at a concrete three row table. -/
theorem build_process_tree_connected_witness :
    ∃ t, build_process_tree [⟨1, 0, "u", "a"⟩, ⟨2, 1, "u", "b"⟩, ⟨3, 1, "u", "c"⟩] =
        .ok t ∧ t.count = 3 := by
  have h := build_process_tree_connected
    [⟨1, 0, "u", "a"⟩, ⟨2, 1, "u", "b"⟩, ⟨3, 1, "u", "c"⟩] ⟨1, 0, "u", "a"⟩
    (by simp) (by decide) (by decide) ?_
  · exact h
  · intro r hr
    simp only [List.mem_cons, List.not_mem_nil, or_false] at hr
    rcases hr with he | he | he <;> subst he
    · exact .refl
    · exact .step ⟨1, 0, "u", "a"⟩ ⟨2, 1, "u", "b"⟩ .refl (by simp) rfl
    · exact .step ⟨1, 0, "u", "a"⟩ ⟨3, 1, "u", "c"⟩ .refl (by simp) rfl

/-- C2 counterexample: an input whose every row is a root candidate in the
claim's sense (parent pid absent from the pid set) but which contains a
duplicate pid fails with the duplicate-pid error, not the too-many-roots
error, because duplicate detection runs first (spec section 4.2 step 2
before step 3). -/
theorem build_root_claim_cex :
    (rootCandidates [⟨2, 1, "u", "a"⟩, ⟨2, 1, "u", "b"⟩]).length = 2 ∧
    build_process_tree [⟨2, 1, "u", "a"⟩, ⟨2, 1, "u", "b"⟩] =
      .error (.duplicatePid 2) := by
  constructor <;> rfl

/-- C2 amended: for inputs with pairwise-distinct pids, zero root candidates
(the empty input included) yield the no-root error and two or more root
candidates yield the too-many-roots error. -/
theorem build_root_candidate_errors (rows : List PsRow)
    (hnd : (pids rows).Nodup) :
    (rootCandidates rows = [] → build_process_tree rows = .error .noRoot) ∧
    (2 ≤ (rootCandidates rows).length →
      build_process_tree rows = .error .tooManyRoots) := by
  have hfd := findDup_eq_none rows [] hnd (by simp)
  constructor
  · intro hrc
    unfold build_process_tree
    rw [hfd, hrc]
  · intro hlen
    unfold build_process_tree
    rw [hfd]
    cases hrc : rootCandidates rows with
    | nil =>
      rw [hrc] at hlen
      exact absurd hlen (by simp)
    | cons a rest =>
      cases rest with
      | nil =>
        rw [hrc] at hlen
        exact absurd hlen (by simp)
      | cons b rest2 => rfl

/-- Witness for the amended C2: the empty input fails with no-root, and a
table with two absent-parent rows and distinct pids fails with
too-many-roots. -/
theorem build_root_candidate_errors_witness :
    build_process_tree [] = .error .noRoot ∧
    build_process_tree [⟨1, 0, "u", "a"⟩, ⟨2, 0, "u", "b"⟩, ⟨4, 2, "u", "c"⟩] =
      .error .tooManyRoots :=
  ⟨(build_root_candidate_errors [] (by decide)).1 rfl,
    (build_root_candidate_errors
      [⟨1, 0, "u", "a"⟩, ⟨2, 0, "u", "b"⟩, ⟨4, 2, "u", "c"⟩] (by decide)).2 (by decide)⟩

/-- C3: every input in which some pid occurs in two or more rows fails with
a duplicate-pid error naming an offending pid (one occurring at least
twice); the error is produced by the indexing pass, before any tree
construction, so no tree is returned. -/
theorem build_duplicate_pid (rows : List PsRow)
    (hdup : ¬ (pids rows).Nodup) :
    ∃ p, build_process_tree rows = .error (.duplicatePid p) ∧
      2 ≤ (pids rows).count p := by
  cases hfd : findDup rows [] with
  | none => exact absurd (nodup_of_findDup_none rows [] hfd).1 hdup
  | some p =>
    obtain ⟨hp1, hp2⟩ := findDup_some rows [] p hfd
    refine ⟨p, ?_, ?_⟩
    · unfold build_process_tree
      rw [hfd]
    · rcases hp2 with h | h
      · cases h
      · exact h

/-- Witness for C3 at the concrete table of the duplicate-pid test. -/
theorem build_duplicate_pid_witness :
    ∃ p, build_process_tree
        [⟨1, 0, "u", "a"⟩, ⟨2, 1, "u", "b"⟩, ⟨2, 1, "u", "c"⟩, ⟨3, 2, "u", "d"⟩] =
        .error (.duplicatePid p) ∧
      2 ≤ (pids [⟨1, 0, "u", "a"⟩, ⟨2, 1, "u", "b"⟩, ⟨2, 1, "u", "c"⟩,
        ⟨3, 2, "u", "d"⟩]).count p :=
  build_duplicate_pid _ (by decide)

theorem build_ok_inv {rows : List PsRow} {t : PsTree}
    (hok : build_process_tree rows = .ok t) :
    ∃ root, (pids rows).Nodup ∧ rootCandidates rows = [root] ∧
      t = assemble rows root := by
  unfold build_process_tree at hok
  cases hfd : findDup rows [] with
  | some p =>
    rw [hfd] at hok
    cases hok
  | none =>
    rw [hfd] at hok
    cases hrc : rootCandidates rows with
    | nil =>
      rw [hrc] at hok
      cases hok
    | cons root rest =>
      cases rest with
      | cons b rest2 =>
        rw [hrc] at hok
        cases hok
      | nil =>
        rw [hrc] at hok
        simp only [] at hok
        refine ⟨root, (nodup_of_findDup_none rows [] hfd).1, rfl, ?_⟩
        by_cases hcond : (assemble rows root).count = rows.length
        · rw [if_pos hcond] at hok
          injection hok with h
          exact h.symm
        · rw [if_neg hcond] at hok
          cases hok

/-- C4: for every input with pairwise-distinct pids and exactly one root
candidate in which some row is not reachable from the root along parent pid
links, `build_process_tree` fails with an unreachable-processes error whose
pid list contains exactly the pids of the unreachable rows. -/
theorem build_process_tree_unreachable (rows : List PsRow) (root : PsRow)
    (hnd : (pids rows).Nodup) (hroot : rootCandidates rows = [root])
    (hx : ∃ r ∈ rows, ¬ ReachIn rows root r) :
    ∃ l, build_process_tree rows = .error (.unreachable l) ∧
      ∀ p, p ∈ l ↔ ∃ r ∈ rows, r.pid = p ∧ ¬ ReachIn rows root r := by
  obtain ⟨hnodup, hiff, hsub⟩ := build_context hnd hroot
  obtain ⟨r0, hr0rows, hr0un⟩ := hx
  have hr0not : r0 ∉ treeRows (assemble rows root) :=
    fun hmem => hr0un ((hiff r0).mp hmem)
  have hsubset : ∀ x ∈ treeRows (assemble rows root), x ∈ removeRow r0 rows := by
    intro x hxm
    exact mem_removeRow.mpr ⟨hsub x hxm, fun he => hr0not (he ▸ hxm)⟩
  have h1 := (List.subperm_of_subset hnodup hsubset).length_le
  have h2 : (removeRow r0 rows).length < rows.length :=
    length_filter_lt hr0rows (by simp)
  have hcountlt : (assemble rows root).count < rows.length := by
    rw [count_eq_length_treeRows]
    omega
  refine ⟨(rows.filter
      (fun r => !((treePids (assemble rows root)).contains r.pid))).map
      (fun r => r.pid), ?_, ?_⟩
  · unfold build_process_tree
    rw [findDup_eq_none rows [] hnd (by simp), hroot]
    simp only []
    rw [if_neg (by omega)]
  · intro p
    constructor
    · intro hp
      rcases List.mem_map.mp hp with ⟨r, hrf, hrp⟩
      obtain ⟨hrrows, hrcond⟩ := List.mem_filter.mp hrf
      rw [Bool.not_eq_true'] at hrcond
      refine ⟨r, hrrows, hrp, ?_⟩
      intro hreach
      have hrmem : r ∈ treeRows (assemble rows root) := (hiff r).mpr hreach
      have : r.pid ∈ treePids (assemble rows root) :=
        mem_pids.mpr ⟨r, hrmem, rfl⟩
      exact natContains_eq_false.mp hrcond this
    · rintro ⟨r, hrrows, hrpid, hrun⟩
      refine List.mem_map.mpr ⟨r, List.mem_filter.mpr ⟨hrrows, ?_⟩, hrpid⟩
      rw [Bool.not_eq_true']
      apply natContains_eq_false.mpr
      intro hmem
      rcases mem_pids.mp hmem with ⟨x, hxmem, hxpid⟩
      have hxrows : x ∈ rows := hsub x hxmem
      have : x = r := pid_inj hnd hxrows hrrows hxpid
      exact hrun ((hiff r).mp (this ▸ hxmem))

/-- Witness for C4 at a table with one root candidate and a two row parent
cycle, whose rows are exactly the unreachable ones. -/
theorem build_process_tree_unreachable_witness :
    ∃ l, build_process_tree
        [⟨1, 0, "u", "a"⟩, ⟨2, 1, "u", "b"⟩, ⟨3, 4, "u", "c"⟩, ⟨4, 3, "u", "d"⟩] =
        .error (.unreachable l) ∧
      ∀ p, p ∈ l ↔ ∃ r ∈ ([⟨1, 0, "u", "a"⟩, ⟨2, 1, "u", "b"⟩, ⟨3, 4, "u", "c"⟩,
        ⟨4, 3, "u", "d"⟩] : List PsRow), r.pid = p ∧
        ¬ ReachIn [⟨1, 0, "u", "a"⟩, ⟨2, 1, "u", "b"⟩, ⟨3, 4, "u", "c"⟩,
          ⟨4, 3, "u", "d"⟩] ⟨1, 0, "u", "a"⟩ r := by
  have hnr : ∀ x, ReachIn [⟨1, 0, "u", "a"⟩, ⟨2, 1, "u", "b"⟩, ⟨3, 4, "u", "c"⟩,
      ⟨4, 3, "u", "d"⟩] ⟨1, 0, "u", "a"⟩ x →
      x ≠ ⟨3, 4, "u", "c"⟩ ∧ x ≠ ⟨4, 3, "u", "d"⟩ := by
    intro x hx
    induction hx with
    | refl => exact ⟨by decide, by decide⟩
    | step p c hp hc hppid ih =>
      constructor
      · intro he
        subst he
        rcases hp.src with he2 | hm
        · rw [he2] at hppid
          exact absurd hppid (by decide)
        · simp only [List.mem_cons, List.not_mem_nil, or_false] at hm
          rcases hm with h | h | h | h <;> subst h
          · exact absurd hppid (by decide)
          · exact absurd hppid (by decide)
          · exact absurd hppid (by decide)
          · exact absurd rfl ih.2
      · intro he
        subst he
        rcases hp.src with he2 | hm
        · rw [he2] at hppid
          exact absurd hppid (by decide)
        · simp only [List.mem_cons, List.not_mem_nil, or_false] at hm
          rcases hm with h | h | h | h <;> subst h
          · exact absurd hppid (by decide)
          · exact absurd hppid (by decide)
          · exact absurd rfl ih.1
          · exact absurd hppid (by decide)
  exact build_process_tree_unreachable _ ⟨1, 0, "u", "a"⟩ (by decide) (by decide)
    ⟨⟨3, 4, "u", "c"⟩, by simp, fun h => (hnr _ h).1 rfl⟩

/-- C5: in every tree returned by `build_process_tree`, the children of each
node are exactly the rows naming that node as parent, in the relative order
in which those rows occur in the input sequence. -/
theorem build_children_in_input_order (rows : List PsRow) (t : PsTree)
    (hok : build_process_tree rows = .ok t) :
    ∀ s ∈ nodesOf t, s.children.map PsTree.row = childrenOf rows s.row.pid := by
  obtain ⟨root, hnd, hrc, ht⟩ := build_ok_inv hok
  subst ht
  obtain ⟨hrootmem, hrootppid⟩ := root_facts hrc
  have hz2 : root.ppid ≠ root.pid :=
    fun he => hrootppid (he ▸ mem_pids.mpr ⟨root, hrootmem, rfl⟩)
  have hdrop : assemble rows root = assemble (removeRow root rows) root :=
    assemble_removeRow hrootppid hz2
  have hnd2 := removeRow_root_nodup hnd hrootmem
  intro s hs
  rw [hdrop] at hs
  rw [nodes_children_aux (removeRow root rows).length _ le_rfl root hnd2 s hs]
  apply childrenOf_removeRow
  have hsrow_mem : s.row ∈ rows := by
    have hmem := row_mem_of_mem_nodesOf _ s hs
    rcases treeRows_assemble_subset hmem with he | hm
    · exact he ▸ hrootmem
    · exact (mem_removeRow.mp hm).1
  intro he
  exact hrootppid (he ▸ mem_pids.mpr ⟨s.row, hsrow_mem, rfl⟩)

/-- Witness for C5: a root whose child rows occur in the input in pid order
9, 2, 3 yields a root child sequence with exactly those rows in that
order. -/
theorem build_children_in_input_order_witness :
    (PsTree.node ⟨1, 0, "u", "a"⟩ [.node ⟨9, 1, "u", "i"⟩ [], .node ⟨2, 1, "u", "j"⟩ [],
        .node ⟨3, 1, "u", "k"⟩ []]).children.map PsTree.row =
      [⟨9, 1, "u", "i"⟩, ⟨2, 1, "u", "j"⟩, ⟨3, 1, "u", "k"⟩] := by
  have h := build_children_in_input_order
    [⟨1, 0, "u", "a"⟩, ⟨9, 1, "u", "i"⟩, ⟨2, 1, "u", "j"⟩, ⟨3, 1, "u", "k"⟩]
    (PsTree.node ⟨1, 0, "u", "a"⟩ [.node ⟨9, 1, "u", "i"⟩ [], .node ⟨2, 1, "u", "j"⟩ [],
      .node ⟨3, 1, "u", "k"⟩ []]) rfl
    (PsTree.node ⟨1, 0, "u", "a"⟩ [.node ⟨9, 1, "u", "i"⟩ [], .node ⟨2, 1, "u", "j"⟩ [],
      .node ⟨3, 1, "u", "k"⟩ []]) (List.mem_cons_self _ _)
  rw [h]
  rfl

/-! ### PsRow construction with integer coercion (C9) -/

/-- C9: `PsRow` coerces its pid and parent pid fields to integers at
construction: rows built from any representations of the same numbers are
equal, with the integer values stored in the fields; in particular
construction from strings "1" and "0" equals construction from integers
1 and 0. -/
theorem psRow_make_coerces (u a : String) :
    (∀ (p q : PsField) (m n : Nat), p.toNat? = some m → q.toNat? = some n →
      PsRow.make p q u a = some ⟨m, n, u, a⟩) ∧
    PsRow.make (.str "1") (.str "0") u a = PsRow.make (.int 1) (.int 0) u a ∧
    PsRow.make (.int 1) (.int 0) u a = some ⟨1, 0, u, a⟩ := by
  refine ⟨?_, rfl, rfl⟩
  intro p q m n hp hq
  unfold PsRow.make
  rw [hp, hq]

/-- Witness for C9 at concrete field values. -/
theorem psRow_make_coerces_witness :
    PsRow.make (.str "12") (.str "3") "root" "tini -- true" =
      some ⟨12, 3, "root", "tini -- true"⟩ :=
  (psRow_make_coerces "root" "tini -- true").1 (.str "12") (.str "3") 12 3
    (by decide) (by decide)

/-! ### The pattern matching engine (spec-modelled, seaworthy.logs) -/
theorem matcherList_isEmpty_eq_nil {l : MatcherList} (h : l.isEmpty = true) :
    l = .nil := by
  cases l with
  | nil => rfl
  | cons m rest => cases h

/-- C6: matcher satisfaction is monotonic: once a matcher is satisfied,
feeding any line is a no-op returning true, and it stays satisfied after
any further sequence of lines; a regex matcher reports satisfaction on the
first line matching its pattern and on every feed call thereafter. -/
theorem matcher_satisfaction_monotone :
    (∀ (m : Matcher) (line : String), is_satisfied m = true →
      feed m line = (m, true)) ∧
    (∀ (m : Matcher) (lines : List String), is_satisfied m = true →
      is_satisfied (feedAll m lines) = true) ∧
    (∀ (p : String → Bool) (line : String), p line = true →
      feed (.regex p false) line = (.regex p true, true)) ∧
    (∀ (p : String → Bool) (line : String),
      feed (.regex p true) line = (.regex p true, true)) := by
  have hstep : ∀ (m : Matcher) (line : String), is_satisfied m = true →
      feed m line = (m, true) := by
    intro m line hm
    cases m with
    | regex p s =>
      rw [is_satisfied] at hm
      subst hm
      rfl
    | ordered pending =>
      rw [is_satisfied] at hm
      rw [matcherList_isEmpty_eq_nil hm]
      rfl
    | unordered pending =>
      rw [is_satisfied] at hm
      rw [matcherList_isEmpty_eq_nil hm]
      rfl
  refine ⟨hstep, ?_, ?_, ?_⟩
  · intro m lines
    induction lines generalizing m with
    | nil => intro hm; exact hm
    | cons line rest ih =>
      intro hm
      rw [feedAll, hstep m line hm]
      exact ih m hm
  · intro p line hp
    rw [feed, hp]
  · intro p line
    rfl

/-- Witness for C6 with a concrete regex matcher and lines. -/
theorem matcher_satisfaction_monotone_witness :
    feed (.regex (fun l => l == "ready") false) "ready" =
      (.regex (fun l => l == "ready") true, true) ∧
    is_satisfied
      (feedAll (.regex (fun l => l == "ready") true) ["noise", "more"]) = true ∧
    feed (.regex (fun l => l == "ready") true) "anything" =
      (.regex (fun l => l == "ready") true, true) :=
  ⟨matcher_satisfaction_monotone.2.2.1 _ "ready" rfl,
    matcher_satisfaction_monotone.2.1 _ ["noise", "more"] rfl,
    matcher_satisfaction_monotone.2.2.2 _ "anything"⟩

/-- C7: an unordered matcher over two regex sub-matchers A and B becomes
satisfied exactly after the second of two lines matching the two patterns,
in either order, and in every reachable outstanding state — both
sub-matchers outstanding, only A outstanding, or only B outstanding — a
line matching no outstanding sub-matcher (a line matching the already
retired pattern included) leaves the matcher, its outstanding set and its
satisfaction unchanged. -/
theorem unordered_two_patterns (a b : String → Bool) (lb la : String)
    (hb : b lb = true) (hab : a lb = false) (ha : a la = true) :
    (feed (.unordered (.cons (.regex a false) (.cons (.regex b false) .nil))) lb =
      (.unordered (.cons (.regex a false) .nil), false)) ∧
    (feed (.unordered (.cons (.regex a false) .nil)) la =
      (.unordered .nil, true)) ∧
    (feed (.unordered (.cons (.regex a false) (.cons (.regex b false) .nil))) la =
      (.unordered (.cons (.regex b false) .nil), false)) ∧
    (feed (.unordered (.cons (.regex b false) .nil)) lb =
      (.unordered .nil, true)) ∧
    (∀ line, a line = false → b line = false →
      feed (.unordered (.cons (.regex a false) (.cons (.regex b false) .nil))) line =
        (.unordered (.cons (.regex a false) (.cons (.regex b false) .nil)), false)) ∧
    (∀ line, a line = false →
      feed (.unordered (.cons (.regex a false) .nil)) line =
        (.unordered (.cons (.regex a false) .nil), false)) ∧
    (∀ line, b line = false →
      feed (.unordered (.cons (.regex b false) .nil)) line =
        (.unordered (.cons (.regex b false) .nil), false)) := by
  refine ⟨?_, ?_, ?_, ?_, ?_, ?_, ?_⟩
  · rw [feed, feedFirst, feed, hab, feedFirst, feed, hb]
    rfl
  · rw [feed, feedFirst, feed, ha]
    rfl
  · rw [feed, feedFirst, feed, ha]
    rfl
  · rw [feed, feedFirst, feed, hb]
    rfl
  · intro line hal hbl
    rw [feed, feedFirst, feed, hal, feedFirst, feed, hbl, feedFirst]
    rfl
  · intro line hal
    rw [feed, feedFirst, feed, hal, feedFirst]
    rfl
  · intro line hbl
    rw [feed, feedFirst, feed, hbl, feedFirst]
    rfl

/-- Witness for C7 with concrete patterns: the two matching lines fed in
both orders, an irrelevant line with both sub-matchers outstanding, a line
matching the retired pattern B while only A is outstanding, and a line
matching the retired pattern A while only B is outstanding. -/
theorem unordered_two_patterns_witness :
    (feed (.unordered (.cons (.regex (fun l => l == "A") false)
        (.cons (.regex (fun l => l == "B") false) .nil))) "B" =
      (.unordered (.cons (.regex (fun l => l == "A") false) .nil), false)) ∧
    (feed (.unordered (.cons (.regex (fun l => l == "A") false) .nil)) "A" =
      (.unordered .nil, true)) ∧
    (feed (.unordered (.cons (.regex (fun l => l == "A") false)
        (.cons (.regex (fun l => l == "B") false) .nil))) "A" =
      (.unordered (.cons (.regex (fun l => l == "B") false) .nil), false)) ∧
    (feed (.unordered (.cons (.regex (fun l => l == "B") false) .nil)) "B" =
      (.unordered .nil, true)) ∧
    (feed (.unordered (.cons (.regex (fun l => l == "A") false)
        (.cons (.regex (fun l => l == "B") false) .nil))) "irrelevant" =
      (.unordered (.cons (.regex (fun l => l == "A") false)
        (.cons (.regex (fun l => l == "B") false) .nil)), false)) ∧
    (feed (.unordered (.cons (.regex (fun l => l == "A") false) .nil)) "B" =
      (.unordered (.cons (.regex (fun l => l == "A") false) .nil), false)) ∧
    (feed (.unordered (.cons (.regex (fun l => l == "B") false) .nil)) "A" =
      (.unordered (.cons (.regex (fun l => l == "B") false) .nil), false)) := by
  have h := unordered_two_patterns (fun l => l == "A") (fun l => l == "B")
    "B" "A" rfl rfl rfl
  exact ⟨h.1, h.2.1, h.2.2.1, h.2.2.2.1, h.2.2.2.2.1 "irrelevant" rfl rfl,
    h.2.2.2.2.2.1 "B" rfl, h.2.2.2.2.2.2 "A" rfl⟩

/-! ### deep_merge, translated from seaworthy/definitions.py lines 10 to 23 -/

theorem hasKey_dset : ∀ (es : PyEntries) (k k2 : String) (v : PyVal),
    hasKey (dset es k v) k2 = (k == k2 || hasKey es k2)
  | .nil, k, k2, v => by simp [dset, hasKey]
  | .cons k0 w rest, k, k2, v => by
    rw [dset]
    by_cases h : k0 = k
    · subst h
      rw [if_pos rfl, hasKey, hasKey]
      cases hb : (k0 == k2) <;> simp [hb]
    · rw [if_neg h, hasKey, hasKey, hasKey_dset rest k k2 v]
      cases hb : (k0 == k2) <;> cases hb2 : (k == k2) <;> simp [hb, hb2]

theorem dget_dset_self : ∀ (es : PyEntries) (k : String) (v : PyVal),
    dget (dset es k v) k = some v
  | .nil, k, v => by simp [dset, dget]
  | .cons k0 w rest, k, v => by
    rw [dset]
    by_cases h : k0 = k
    · subst h
      simp [dget]
    · rw [if_neg h, dget, if_neg h]
      exact dget_dset_self rest k v

theorem dget_dset_ne : ∀ (es : PyEntries) (k k2 : String) (v : PyVal), k ≠ k2 →
    dget (dset es k v) k2 = dget es k2
  | .nil, k, k2, v, h => by simp [dset, dget, h]
  | .cons k0 w rest, k, k2, v, h => by
    rw [dset]
    by_cases h0 : k0 = k
    · subst h0
      rw [if_pos rfl, dget, if_neg (fun he => h he), dget, if_neg (fun he => h he)]
    · rw [if_neg h0, dget, dget, dget_dset_ne rest k k2 v h]

theorem dget_none_of_hasKey_false : ∀ {es : PyEntries} {k : String},
    hasKey es k = false → dget es k = none
  | .nil, _, _ => rfl
  | .cons k0 v rest, k, h => by
    rw [hasKey, Bool.or_eq_false_iff] at h
    rw [dget, if_neg (beq_eq_false_iff_ne.mp h.1)]
    exact dget_none_of_hasKey_false h.2

theorem wf_cons_iff {k : String} {v : PyVal} {rest : PyEntries} :
    (PyEntries.cons k v rest).wf = true ↔
      hasKey rest k = false ∧ v.wf = true ∧ rest.wf = true := by
  show (!(hasKey rest k) && v.wf && rest.wf) = true ↔ _
  simp [Bool.and_eq_true, Bool.not_eq_true']
  tauto

theorem dset_wf : ∀ {es : PyEntries} {v : PyVal}, es.wf = true →
    v.wf = true → ∀ k : String, (dset es k v).wf = true
  | .nil, v, _, hv, k => by
    rw [dset, wf_cons_iff]
    exact ⟨rfl, hv, rfl⟩
  | .cons k0 w rest, v, hes, hv, k => by
    rw [wf_cons_iff] at hes
    rw [dset]
    by_cases h : k0 = k
    · subst h
      rw [if_pos rfl, wf_cons_iff]
      exact ⟨hes.1, hv, hes.2.2⟩
    · rw [if_neg h, wf_cons_iff]
      refine ⟨?_, hes.2.1, dset_wf hes.2.2 hv k⟩
      rw [hasKey_dset]
      rw [beq_eq_false_iff_ne.mpr (fun he => h he.symm), hes.1]
      rfl

theorem wf_dget : ∀ {es : PyEntries} {k : String} {v : PyVal}, es.wf = true →
    dget es k = some v → v.wf = true
  | .nil, _, _, _, h => by cases h
  | .cons k0 w rest, k, v, hes, h => by
    rw [wf_cons_iff] at hes
    rw [dget] at h
    by_cases h0 : k0 = k
    · rw [if_pos h0] at h
      injection h with he
      exact he ▸ hes.2.1
    · rw [if_neg h0] at h
      exact wf_dget hes.2.2 h

theorem wf_dgetD {es : PyEntries} (k : String) (hes : es.wf = true) :
    (dgetD es k).wf = true := by
  unfold dgetD
  cases hget : dget es k with
  | none => rfl
  | some v => exact wf_dget hes hget

theorem accD_dget (es : PyEntries) (k : String) : accD (dget es k) = dgetD es k := by
  unfold accD dgetD
  cases dget es k <;> rfl

mutual

theorem rebuildVal_wf : ∀ v : PyVal, v.wf = true → (rebuildVal v).wf = true
  | .int _, h => h
  | .str _, h => h
  | .dict es, h => rebuildEntries_wf es .nil h rfl

theorem rebuildEntries_wf : ∀ (es result : PyEntries), es.wf = true →
    result.wf = true → (rebuildEntries result es).wf = true
  | .nil, _, _, hr => hr
  | .cons k v rest, result, h, hr => by
    rw [wf_cons_iff] at h
    rw [rebuildEntries]
    exact rebuildEntries_wf rest _ h.2.2 (dset_wf hr (rebuildVal_wf v h.2.1) k)

end

/-! ### dmEntries against its specification -/

theorem dmEntries_cons_dict {result : PyEntries} {k : String} {prev : PyEntries}
    (es2 rest : PyEntries) (hprev : dgetD result k = .dict prev) :
    dmEntries result (.cons k (.dict es2) rest) =
      match dmEntries (rebuildEntries .nil prev) es2 with
      | .ok merged => dmEntries (dset result k (.dict merged)) rest
      | .error e => .error e := by
  rw [dmEntries, hprev]

theorem dmEntries_cons_baddict {result : PyEntries} {k : String} {v : PyVal}
    (es2 rest : PyEntries) (hprev : dgetD result k = v) (hv : v.isDict = false) :
    dmEntries result (.cons k (.dict es2) rest) = .error (cantMergeMsg v) := by
  rw [dmEntries, hprev]
  cases v with
  | dict p => cases hv
  | int n => rfl
  | str s => rfl

theorem dmEntries_rebuild : ∀ (es result : PyEntries), es.wf = true →
    (∀ k2, hasKey es k2 = true → hasKey result k2 = false) →
    dmEntries result es = .ok (rebuildEntries result es)
  | .nil, result, _, _ => by
    rw [dmEntries, rebuildEntries]
  | .cons k v rest, result, h, hdisj => by
    rw [wf_cons_iff] at h
    obtain ⟨hk, hv, hrest⟩ := h
    have hkres : hasKey result k = false := hdisj k (by rw [hasKey]; simp)
    have hdisj2 : ∀ w : PyVal, ∀ k2, hasKey rest k2 = true →
        hasKey (dset result k w) k2 = false := by
      intro w k2 hk2
      rw [hasKey_dset]
      have hne : (k == k2) = false := by
        rw [beq_eq_false_iff_ne]
        intro he
        rw [he, hk2] at hk
        cases hk
      rw [hne, hdisj k2 (by rw [hasKey, hk2]; simp)]
      rfl
    cases v with
    | int n => exact dmEntries_rebuild rest _ hrest (hdisj2 _)
    | str s => exact dmEntries_rebuild rest _ hrest (hdisj2 _)
    | dict es2 =>
      have hnone : dget result k = none := dget_none_of_hasKey_false hkres
      have hgetd : dgetD result k = .dict .nil := by
        rw [dgetD, hnone]
      rw [dmEntries_cons_dict es2 rest hgetd]
      have hrec1 : dmEntries (rebuildEntries .nil .nil) es2 =
          .ok (rebuildEntries .nil es2) :=
        dmEntries_rebuild es2 .nil hv (fun _ _ => rfl)
      rw [hrec1]
      exact dmEntries_rebuild rest _ hrest (hdisj2 _)

theorem deep_merge_pair (prev es2 : PyEntries) (hwf : prev.wf = true) :
    deep_merge [.dict prev, .dict es2] =
      dmEntries (rebuildEntries .nil prev) es2 := by
  unfold deep_merge deepMergeFrom
  rw [dmStep, dmEntries_rebuild prev .nil hwf (fun _ _ => rfl)]
  cases hres : dmEntries (rebuildEntries .nil prev) es2 with
  | ok m => simp [deepMergeFrom, dmStep, hres]
  | error e => simp [deepMergeFrom, dmStep, hres]

theorem keyStep_none {k : String} {acc : Option PyVal} {es : PyEntries}
    (h : dget es k = none) : keyStep k acc es = .ok acc := by
  unfold keyStep
  rw [h]

theorem keyStep_nondict {k : String} {acc : Option PyVal} {es : PyEntries}
    {v : PyVal} (h : dget es k = some v) (hv : v.isDict = false) :
    keyStep k acc es = .ok (some v) := by
  unfold keyStep
  rw [h]
  cases v with
  | dict p => cases hv
  | int n => rfl
  | str s => rfl

theorem keyStep_dict {k : String} {acc : Option PyVal} {es es2 : PyEntries}
    (h : dget es k = some (.dict es2)) :
    keyStep k acc es =
      match deep_merge [accD acc, .dict es2] with
      | .ok merged => .ok (some (.dict merged))
      | .error e => .error e := by
  unfold keyStep
  rw [h]

theorem keyStep_skip {k k0 : String} {acc : Option PyVal} {v : PyVal}
    {rest : PyEntries} (h : k0 ≠ k) :
    keyStep k acc (.cons k0 v rest) = keyStep k acc rest := by
  unfold keyStep
  rw [dget, if_neg h]

theorem dmEntries_key : ∀ (es result r2 : PyEntries), es.wf = true →
    result.wf = true → dmEntries result es = .ok r2 →
    r2.wf = true ∧ ∀ k, keyStep k (dget result k) es = .ok (dget r2 k)
  | .nil, result, r2, _, hres, hrun => by
    rw [dmEntries] at hrun
    injection hrun with he
    subst he
    exact ⟨hres, fun k => keyStep_none rfl⟩
  | .cons k0 v rest, result, r2, h, hres, hrun => by
    rw [wf_cons_iff] at h
    obtain ⟨hk0, hv, hrest⟩ := h
    have hrestnone : dget rest k0 = none := dget_none_of_hasKey_false hk0
    cases v with
    | int n =>
      obtain ⟨hr2wf, hkeys⟩ := dmEntries_key rest (dset result k0 (.int n)) r2
        hrest (dset_wf hres (show (PyVal.int n).wf = true from rfl) k0) hrun
      refine ⟨hr2wf, ?_⟩
      intro k
      by_cases hk : k0 = k
      · subst hk
        have h1 := hkeys k0
        rw [keyStep_none hrestnone, dget_dset_self] at h1
        rw [keyStep_nondict (by rw [dget, if_pos rfl])
          (show (PyVal.int n).isDict = false from rfl)]
        exact h1
      · have h1 := hkeys k
        rw [dget_dset_ne result k0 k _ hk] at h1
        rw [keyStep_skip hk]
        exact h1
    | str s =>
      obtain ⟨hr2wf, hkeys⟩ := dmEntries_key rest (dset result k0 (.str s)) r2
        hrest (dset_wf hres (show (PyVal.str s).wf = true from rfl) k0) hrun
      refine ⟨hr2wf, ?_⟩
      intro k
      by_cases hk : k0 = k
      · subst hk
        have h1 := hkeys k0
        rw [keyStep_none hrestnone, dget_dset_self] at h1
        rw [keyStep_nondict (by rw [dget, if_pos rfl])
          (show (PyVal.str s).isDict = false from rfl)]
        exact h1
      · have h1 := hkeys k
        rw [dget_dset_ne result k0 k _ hk] at h1
        rw [keyStep_skip hk]
        exact h1
    | dict es2 =>
      cases hgd : dgetD result k0 with
      | int m =>
        rw [dmEntries_cons_baddict es2 rest hgd rfl] at hrun
        cases hrun
      | str s2 =>
        rw [dmEntries_cons_baddict es2 rest hgd rfl] at hrun
        cases hrun
      | dict prev =>
        have hprevwf : prev.wf = true := by
          have hw := wf_dgetD k0 hres
          rw [hgd] at hw
          exact hw
        rw [dmEntries_cons_dict es2 rest hgd] at hrun
        cases hmerge : dmEntries (rebuildEntries .nil prev) es2 with
        | error e =>
          rw [hmerge] at hrun
          cases hrun
        | ok merged =>
          rw [hmerge] at hrun
          obtain ⟨hmwf, _⟩ := dmEntries_key es2 (rebuildEntries .nil prev) merged
            hv (rebuildEntries_wf prev .nil hprevwf rfl) hmerge
          obtain ⟨hr2wf, hkeys⟩ := dmEntries_key rest
            (dset result k0 (.dict merged)) r2 hrest
            (dset_wf hres (show (PyVal.dict merged).wf = true from hmwf) k0) hrun
          refine ⟨hr2wf, ?_⟩
          have hdm : deep_merge [accD (dget result k0), .dict es2] = .ok merged := by
            rw [accD_dget, hgd, deep_merge_pair prev es2 hprevwf, hmerge]
          intro k
          by_cases hk : k0 = k
          · subst hk
            have h1 := hkeys k0
            rw [keyStep_none hrestnone, dget_dset_self] at h1
            rw [keyStep_dict (by rw [dget, if_pos rfl]), hdm]
            exact h1
          · have h1 := hkeys k
            rw [dget_dset_ne result k0 k _ hk] at h1
            rw [keyStep_skip hk]
            exact h1

theorem deepMergeFrom_error_of_nondict : ∀ (ds : List PyVal) (result : PyEntries),
    (∃ d ∈ ds, d.isDict = false) → ∃ e, deepMergeFrom result ds = .error e := by
  intro ds
  induction ds with
  | nil =>
    intro result h
    rcases h with ⟨d, hd, _⟩
    cases hd
  | cons d rest ih =>
    intro result h
    rw [deepMergeFrom]
    cases hstep : dmStep result d with
    | error e => exact ⟨e, rfl⟩
    | ok r2 =>
      rcases h with ⟨d0, hd0, hd0n⟩
      rcases List.mem_cons.mp hd0 with he | hmem
      · subst he
        cases d0 with
        | dict es => cases hd0n
        | int n => exact Except.noConfusion hstep
        | str s => exact Except.noConfusion hstep
      · exact ih r2 ⟨d0, hmem, hd0n⟩

theorem mergedVal_cons_none {k : String} {acc : Option PyVal} {es : PyEntries}
    {rest : List PyVal} (h : dget es k = none) :
    mergedVal k acc (.dict es :: rest) = mergedVal k acc rest := by
  rw [mergedVal, h]

theorem mergedVal_cons_nondict {k : String} {acc : Option PyVal}
    {es : PyEntries} {rest : List PyVal} {v : PyVal} (h : dget es k = some v)
    (hv : v.isDict = false) :
    mergedVal k acc (.dict es :: rest) = mergedVal k (some v) rest := by
  rw [mergedVal, h]
  cases v with
  | dict p => cases hv
  | int n => rfl
  | str s => rfl

theorem mergedVal_cons_dict {k : String} {acc : Option PyVal}
    {es es2 : PyEntries} {rest : List PyVal} (h : dget es k = some (.dict es2)) :
    mergedVal k acc (.dict es :: rest) =
      match deep_merge [accD acc, .dict es2] with
      | .ok merged => mergedVal k (some (.dict merged)) rest
      | .error e => .error e := by
  rw [mergedVal, h]

theorem deepMergeFrom_key : ∀ (ds : List PyVal) (result r : PyEntries),
    (∀ d ∈ ds, d.wf = true) → result.wf = true →
    deepMergeFrom result ds = .ok r →
    ∀ k, mergedVal k (dget result k) ds = .ok (dget r k) := by
  intro ds
  induction ds with
  | nil =>
    intro result r _ _ h k
    rw [deepMergeFrom] at h
    injection h with he
    subst he
    rfl
  | cons d rest ih =>
    intro result r hwf hres h k
    rw [deepMergeFrom] at h
    cases hstep : dmStep result d with
    | error e =>
      rw [hstep] at h
      cases h
    | ok r2 =>
      rw [hstep] at h
      cases d with
      | int n => exact Except.noConfusion hstep
      | str s => exact Except.noConfusion hstep
      | dict es =>
        rw [dmStep] at hstep
        obtain ⟨hr2wf, hkeys⟩ := dmEntries_key es result r2
          (hwf _ (List.mem_cons_self _ _)) hres hstep
        have hmv := ih r2 r (fun d2 hd2 => hwf d2 (List.mem_cons_of_mem _ hd2))
          hr2wf h k
        have hks := hkeys k
        cases hget : dget es k with
        | none =>
          rw [keyStep_none hget] at hks
          injection hks with he
          rw [mergedVal_cons_none hget, he]
          exact hmv
        | some v =>
          cases v with
          | dict es2 =>
            rw [keyStep_dict hget] at hks
            cases hdm : deep_merge [accD (dget result k), .dict es2] with
            | error e =>
              rw [hdm] at hks
              cases hks
            | ok m =>
              rw [hdm] at hks
              injection hks with he
              rw [mergedVal_cons_dict hget, hdm]
              rw [← he] at hmv
              exact hmv
          | int n =>
            rw [keyStep_nondict hget (show (PyVal.int n).isDict = false from rfl)]
              at hks
            injection hks with he
            rw [mergedVal_cons_nondict hget
              (show (PyVal.int n).isDict = false from rfl), he]
            exact hmv
          | str s =>
            rw [keyStep_nondict hget (show (PyVal.str s).isDict = false from rfl)]
              at hks
            injection hks with he
            rw [mergedVal_cons_nondict hget
              (show (PyVal.str s).isDict = false from rfl), he]
            exact hmv

/-! ### Claim theorems for deep_merge -/

/-- C10 counterexample: both arguments are dictionaries, yet `deep_merge`
raises.  Merging `[{"a": 1}, {"a": {"b": 2}}]` recursively deep-merges the
accumulated non-dictionary value 1 for key "a" with the dictionary value,
raising the can-only-merge-dicts exception, where the claim promises the
value from the last argument containing the key. -/
theorem deep_merge_claim_cex :
    deep_merge [.dict (.cons "a" (.int 1) .nil),
      .dict (.cons "a" (.dict (.cons "b" (.int 2) .nil)) .nil)] =
      .error "Can only deep_merge dicts, got 1" := rfl

/-- C10 amended: `deep_merge` raises whenever any argument is not a
dictionary, and whenever it returns a dictionary, the value at each key is
the left to right fold of that key's values over the arguments containing
it, a non-dictionary value overwriting the accumulated value and a
dictionary value being deep-merged with it (so the fold itself raises, as
does `deep_merge`, when a dictionary value meets a non-dictionary
accumulated value). -/
theorem deep_merge_correct (ds : List PyVal) :
    ((∃ d ∈ ds, d.isDict = false) → ∃ e, deep_merge ds = .error e) ∧
    ((∀ d ∈ ds, d.wf = true) → ∀ r, deep_merge ds = .ok r →
      ∀ k, mergedVal k none ds = .ok (dget r k)) := by
  constructor
  · intro h
    exact deepMergeFrom_error_of_nondict ds .nil h
  · intro hwf r hok k
    exact deepMergeFrom_key ds .nil r hwf rfl hok k

/-- Witness for C10: a non-dictionary argument raises, and on a concrete
merge of two dictionaries with nested dictionaries under a shared key the
per-key fold equals the lookup in the computed result. -/
theorem deep_merge_correct_witness :
    (∃ e, deep_merge [.int 5] = .error e) ∧
    mergedVal "a" none
      [.dict (.cons "a" (.dict (.cons "x" (.int 1) .nil)) (.cons "b" (.int 2) .nil)),
        .dict (.cons "a" (.dict (.cons "y" (.int 3) .nil)) .nil)] =
      .ok (dget (.cons "a" (.dict (.cons "x" (.int 1) (.cons "y" (.int 3) .nil)))
        (.cons "b" (.int 2) .nil)) "a") := by
  constructor
  · exact (deep_merge_correct [.int 5]).1 ⟨.int 5, List.mem_cons_self _ _, rfl⟩
  · exact (deep_merge_correct
      [.dict (.cons "a" (.dict (.cons "x" (.int 1) .nil)) (.cons "b" (.int 2) .nil)),
        .dict (.cons "a" (.dict (.cons "y" (.int 3) .nil)) .nil)]).2 (by decide)
      (.cons "a" (.dict (.cons "x" (.int 1) (.cons "y" (.int 3) .nil)))
        (.cons "b" (.int 2) .nil)) rfl "a"

end Seaworthy
